import Mathlib

/-!
Shallow embedding of the dictionary core of the glearn repository: the
`Dictionary` class of the dictionary module (interface `DictionaryEntry`,
`parseLine`, `initialize`, `getInstance`, `get`, `findLongestMatch`) and the
segmentation loop of the `InteractiveText` component.

A JavaScript string is modelled as the list of its UTF-16 code units
(`List Nat`).  JavaScript `String.prototype.length`, indexing, `substring`
and `split` all operate on UTF-16 code units, and the embedding mirrors
that choice exactly; a code point outside the Basic Multilingual Plane
occupies two consecutive code units (a surrogate pair).
-/

/-- The set of code units matched by the JavaScript regular-expression
class `\s` (which is also exactly the set of code points stripped by
`String.prototype.trim`). -/
def isWS (u : Nat) : Bool :=
  decide (u = 9 ∨ u = 10 ∨ u = 11 ∨ u = 12 ∨ u = 13 ∨ u = 32 ∨ u = 160 ∨
    u = 5760 ∨ (8192 ≤ u ∧ u ≤ 8202) ∨ u = 8232 ∨ u = 8233 ∨ u = 8239 ∨
    u = 8287 ∨ u = 12288 ∨ u = 65279)

/-- The set of code units matched by the JavaScript regular-expression
atom `.` without the `s` flag: every unit except the line terminators
`\n` (10), `\r` (13), U+2028 (8232) and U+2029 (8233). -/
def isDot (u : Nat) : Bool :=
  decide (¬ (u = 10 ∨ u = 13 ∨ u = 8232 ∨ u = 8233))

/-- JavaScript `String.prototype.trim`: strip leading and trailing
whitespace units. -/
def trim (cs : List Nat) : List Nat :=
  ((cs.dropWhile isWS).reverse.dropWhile isWS).reverse

/-- JavaScript `String.prototype.split(sep)` for a one-unit separator:
`"".split(sep)` is `[""]`, and every occurrence of the separator starts a
new piece, so a string with `n` separators splits into `n + 1` pieces. -/
def splitOn (sep : Nat) : List Nat → List (List Nat)
  | [] => [[]]
  | c :: rest =>
    if c = sep then [] :: splitOn sep rest
    else
      match splitOn sep rest with
      | [] => [[c]]
      | p :: ps => (c :: p) :: ps

/-- One dictionary entry, as in the `DictionaryEntry` interface of the
dictionary module (fields `traditional`, `simplified`, `pinyin`,
`definitions`). -/
structure DictionaryEntry where
  traditional : List Nat
  simplified : List Nat
  pinyin : List Nat
  definitions : List (List Nat)
  deriving DecidableEq, Repr

/-!
The `parseLine` regular expression
`/^(?!#)(.+?)\s(.+?)\s\[(.+?)\]\s\/(.+?)\/$/` is embedded as an explicit
backtracking matcher.  The pattern is the anchored sequence: negative
lookahead for `#` at position 0, lazy group 1 (`(.+?)`), one `\s` unit,
lazy group 2, one `\s` unit, the literal `[` (91), lazy group 3, the
literal `]` (93), one `\s` unit, the literal `/` (47), lazy group 4, the
literal `/` (47), end of input.  Each `pN` function consumes the lazy
group `N` one unit at a time; at every position it first attempts the
terminator that follows the group (the lazy preference for the shortest
extension) via the corresponding `pNTerm`, and on failure of the whole
remainder it extends the group by the current unit provided that unit is
matched by `.` — exactly the depth-first backtracking order of the
JavaScript engine.  The accumulator holds the group read so far, in
reverse.
-/

/-- Terminator attempt for group 4: the final `/` must be the current
unit with nothing after it (`\/$`), and the lazy `(.+?)` must have
consumed at least one unit. -/
def p4Term (acc : List Nat) (c : Nat) (rest : List Nat) : Option (List Nat) :=
  if c = 47 ∧ rest = [] ∧ acc ≠ [] then some acc.reverse else none

/-- Matcher for `(.+?)\/$` (group 4 and the final literal). -/
def p4 (acc : List Nat) : List Nat → Option (List Nat)
  | [] => none
  | c :: rest =>
    match p4Term acc c rest with
    | some r => some r
    | none => if isDot c then p4 (c :: acc) rest else none

/-- Terminator attempt for group 3: the current unit must be `]`, followed
by one `\s` unit, the literal `/`, and a match of `(.+?)\/$`. -/
def p3Term (acc : List Nat) (c : Nat) (rest : List Nat) :
    Option (List Nat × List Nat) :=
  match rest with
  | s :: t :: rest2 =>
    if c = 93 ∧ acc ≠ [] ∧ isWS s ∧ t = 47 then
      match p4 [] rest2 with
      | some g4 => some (acc.reverse, g4)
      | none => none
    else none
  | _ => none

/-- Matcher for `(.+?)\]\s\/(.+?)\/$` (groups 3 and 4). -/
def p3 (acc : List Nat) : List Nat → Option (List Nat × List Nat)
  | [] => none
  | c :: rest =>
    match p3Term acc c rest with
    | some r => some r
    | none => if isDot c then p3 (c :: acc) rest else none

/-- Terminator attempt for group 2: the current unit must be `\s`,
followed by the literal `[` and a match of the rest of the pattern. -/
def p2Term (acc : List Nat) (c : Nat) (rest : List Nat) :
    Option (List Nat × List Nat × List Nat) :=
  match rest with
  | t :: rest2 =>
    if isWS c ∧ acc ≠ [] ∧ t = 91 then
      match p3 [] rest2 with
      | some r => some (acc.reverse, r.1, r.2)
      | none => none
    else none
  | [] => none

/-- Matcher for `(.+?)\s\[(.+?)\]\s\/(.+?)\/$` (groups 2, 3 and 4). -/
def p2 (acc : List Nat) : List Nat → Option (List Nat × List Nat × List Nat)
  | [] => none
  | c :: rest =>
    match p2Term acc c rest with
    | some r => some r
    | none => if isDot c then p2 (c :: acc) rest else none

/-- Terminator attempt for group 1: the current unit must be `\s`,
followed by a match of the rest of the pattern. -/
def p1Term (acc : List Nat) (c : Nat) (rest : List Nat) :
    Option (List Nat × List Nat × List Nat × List Nat) :=
  if isWS c ∧ acc ≠ [] then
    match p2 [] rest with
    | some r => some (acc.reverse, r.1, r.2.1, r.2.2)
    | none => none
  else none

/-- Matcher for `(.+?)\s(.+?)\s\[(.+?)\]\s\/(.+?)\/$` (all four groups). -/
def p1 (acc : List Nat) : List Nat → Option (List Nat × List Nat × List Nat × List Nat)
  | [] => none
  | c :: rest =>
    match p1Term acc c rest with
    | some r => some r
    | none => if isDot c then p1 (c :: acc) rest else none

/-- The anchored match of the whole `parseLine` regular expression against
a string: the negative lookahead `^(?!#)` fails exactly when the first
unit is `#` (35); on an empty string the lookahead succeeds but `(.+?)`
cannot match.  Returns the four capture groups on success. -/
def rmatch (cs : List Nat) : Option (List Nat × List Nat × List Nat × List Nat) :=
  match cs with
  | [] => none
  | c :: _ => if c = 35 then none else p1 [] cs

/-- `Dictionary.parseLine`: trim the line, match it against the regular
expression, and on success build the entry from the four capture groups,
splitting the definitions capture on `/` (47) and discarding empty
substrings (`definitionsStr.split('/').filter(def => def.length > 0)`). -/
def Dictionary.parseLine (line : List Nat) : Option DictionaryEntry :=
  match rmatch (trim line) with
  | some (traditional, simplified, pinyin, definitionsStr) =>
    some { traditional := traditional, simplified := simplified,
           pinyin := pinyin,
           definitions :=
             (splitOn 47 definitionsStr).filter (fun d => decide (d.length > 0)) }
  | none => none

/-- Lookup in a JavaScript `Map` modelled as an association list in
insertion order: `Map.prototype.get` returns the value stored under the
key, `undefined` (here `none`) if absent. -/
def mapGet (m : List (List Nat × DictionaryEntry)) (k : List Nat) :
    Option DictionaryEntry :=
  match m with
  | [] => none
  | p :: rest => if p.1 = k then some p.2 else mapGet rest k

/-- `Map.prototype.has`. -/
def mapHas (m : List (List Nat × DictionaryEntry)) (k : List Nat) : Bool :=
  (mapGet m k).isSome

/-- `Map.prototype.set`: if the key is present its value is replaced in
place (insertion order preserved), otherwise the pair is appended. -/
def mapSet (m : List (List Nat × DictionaryEntry)) (k : List Nat)
    (v : DictionaryEntry) : List (List Nat × DictionaryEntry) :=
  match m with
  | [] => [(k, v)]
  | p :: rest => if p.1 = k then (k, v) :: rest else p :: mapSet rest k v

/-- The body of the per-line loop of `Dictionary.initializeFrom`: parse the
line and, on a non-null entry, store it under both the traditional and the
simplified headword (`this.entries.set(entry.traditional, entry);
this.entries.set(entry.simplified, entry)`). -/
def insLine (m : List (List Nat × DictionaryEntry)) (line : List Nat) :
    List (List Nat × DictionaryEntry) :=
  match Dictionary.parseLine line with
  | some entry => mapSet (mapSet m entry.traditional entry) entry.simplified entry
  | none => m

/-- The entry map built by `Dictionary.initializeFrom` from the raw data split
on `'\n'` (10), processing the lines in order starting from the empty
map. -/
def buildEntries (lines : List (List Nat)) : List (List Nat × DictionaryEntry) :=
  lines.foldl insLine []

/-- The `maxKeyLength` scan of `Dictionary.initializeFrom`: `maxLen` starts at
0 and is replaced by `key.length` whenever `key.length > maxLen`, over the
keys of the map in order. -/
def maxKeyLen (m : List (List Nat × DictionaryEntry)) : Nat :=
  m.foldl (fun acc p => if p.1.length > acc then p.1.length else acc) 0

/-- The state of one `Dictionary` object: its three mutable fields
`entries`, `isInitialized` and `maxKeyLength`. -/
structure Dictionary where
  entries : List (List Nat × DictionaryEntry)
  isInitialized : Bool
  maxKeyLength : Nat
  deriving DecidableEq, Repr

/-- A freshly constructed `Dictionary` (`new Dictionary()`): the field
initializers give an empty map, `isInitialized = false` and
`maxKeyLength = 0`. -/
def newDictionary : Dictionary :=
  { entries := [], isInitialized := false, maxKeyLength := 0 }

/-- The successful path of the source method `Dictionary.initialize`
(renamed here), as a function of the fetched raw text: split on `'\n'`,
fold the per-line insertion over all lines, set `isInitialized` to true,
and compute `maxKeyLength` over the keys of the finished map.  (The fetch
itself and its failure path are modelled by the `gstep` machine below.) -/
def Dictionary.initializeFrom (rawData : List Nat) : Dictionary :=
  { entries := buildEntries (splitOn 10 rawData),
    isInitialized := true,
    maxKeyLength := maxKeyLen (buildEntries (splitOn 10 rawData)) }

/-- `Dictionary.get`: the first component is the returned value, the
second records whether the `console.error` call on the not-initialized
path was executed. -/
def Dictionary.get (d : Dictionary) (k : List Nat) :
    Option DictionaryEntry × Bool :=
  if d.isInitialized then (mapGet d.entries k, false) else (none, true)

/-- The candidate-length loop of `findLongestMatch`: lengths are tried
from `n` down to 1; a length is considered only when
`startIndex + length <= text.length`, in which case the substring
`text.substring(startIndex, startIndex + length)` is tested for map
membership and returned on a hit. -/
def flmLoop (ent : List (List Nat × DictionaryEntry)) (text : List Nat)
    (startIndex : Nat) : Nat → Option (List Nat)
  | 0 => none
  | n + 1 =>
    if startIndex + (n + 1) ≤ text.length then
      if mapHas ent ((text.drop startIndex).take (n + 1)) then
        some ((text.drop startIndex).take (n + 1))
      else flmLoop ent text startIndex n
    else flmLoop ent text startIndex n

/-- `Dictionary.findLongestMatch`: null when not initialized, otherwise
the decreasing-length scan starting at `maxKeyLength`. -/
def Dictionary.findLongestMatch (d : Dictionary) (text : List Nat)
    (startIndex : Nat) : Option (List Nat) :=
  if d.isInitialized then flmLoop d.entries text startIndex d.maxKeyLength
  else none

/-- One segment produced by the `InteractiveText` loop: its `content`
string, whether it came from a dictionary match, and the position at
which it starts. -/
structure Segment where
  content : List Nat
  isMatch : Bool
  startIndex : Nat
  deriving DecidableEq, Repr

/-- The `InteractiveText` while loop, from position `i`: on a match `m`
push a matched segment and advance by `m.length`; otherwise push the
single unit `text[i]` as an unmatched segment and advance by 1; stop when
`i` reaches `text.length`.  The loop index strictly increases, so the
iteration count is bounded by `text.length - i`; `fuel` is any such bound
and the unfolding below is exactly the loop. -/
def segmentsFrom (d : Dictionary) (text : List Nat) : Nat → Nat → List Segment
  | 0, _ => []
  | fuel + 1, i =>
    if h : i < text.length then
      match d.findLongestMatch text i with
      | some m =>
        { content := m, isMatch := true, startIndex := i } ::
          segmentsFrom d text fuel (i + m.length)
      | none =>
        { content := [text.get ⟨i, h⟩], isMatch := false, startIndex := i } ::
          segmentsFrom d text fuel (i + 1)
    else []

/-- The full segmentation of a text by `InteractiveText`, starting at
position 0. -/
def interactiveTextSegments (d : Dictionary) (text : List Nat) : List Segment :=
  segmentsFrom d text text.length 0

/-- Contiguity of a segment list: starting from position `i`, every
segment starts where the previous one ended, has non-empty content, and
the last one ends exactly at `textLen`.  (This is the formal rendering of
"contiguous, non-overlapping, covering `[0, length(text))`".) -/
def SegChain (textLen : Nat) : Nat → List Segment → Prop
  | i, [] => i = textLen
  | i, s :: rest =>
    s.startIndex = i ∧ s.content ≠ [] ∧
      SegChain textLen (i + s.content.length) rest

/-- The chronological sequence of `(key, entry)` insertions performed by
the loop of `Dictionary.initializeFrom`: for every line whose parse is
non-null, first the traditional key, then the simplified key. -/
def insertsOf (line : List Nat) : List (List Nat × DictionaryEntry) :=
  match Dictionary.parseLine line with
  | some e => [(e.traditional, e), (e.simplified, e)]
  | none => []

/-- All insertions performed while processing `lines`, in order. -/
def insertSeq (lines : List (List Nat)) : List (List Nat × DictionaryEntry) :=
  (lines.map insertsOf).flatten

/-- The value written by the chronologically last insertion that uses key
`k`, if any (last write wins). -/
def lastVal (s : List (List Nat × DictionaryEntry)) (k : List Nat) :
    Option DictionaryEntry :=
  s.foldl (fun acc p => if p.1 = k then some p.2 else acc) none

/-- First half of a UTF-16 surrogate pair (U+D800 to U+DBFF). -/
def isHighSurrogate (u : Nat) : Bool := decide (55296 ≤ u ∧ u ≤ 56319)

/-- Second half of a UTF-16 surrogate pair (U+DC00 to U+DFFF). -/
def isLowSurrogate (u : Nat) : Bool := decide (56320 ≤ u ∧ u ≤ 57343)

/-- Grouping of a UTF-16 code-unit string into its characters (Unicode
code points): a high surrogate followed by a low surrogate forms one
character of two units, every other unit is one character. -/
def utf16Chars : List Nat → List (List Nat)
  | [] => []
  | a :: b :: rest =>
    if isHighSurrogate a ∧ isLowSurrogate b then [a, b] :: utf16Chars rest
    else [a] :: utf16Chars (b :: rest)
  | [a] => [[a]]

/-- The number of characters (code points) of a UTF-16 string; this is
what the specification calls the character length, as opposed to the
code-unit length `List.length` used by JavaScript `.length`. -/
def charCount (cs : List Nat) : Nat := (utf16Chars cs).length

/-- The maximum character length over the keys of a map (0 when empty). -/
def maxCharLen (m : List (List Nat × DictionaryEntry)) : Nat :=
  m.foldl (fun acc p => max acc (charCount p.1)) 0

/-- A string matches the shape of a dictionary entry line: it decomposes
as `<g1> <sp> <g2> <sp> [ <g3> ] <sp> / <g4> /` where each group is a
non-empty run of units matched by `.`, each `<sp>` is one `\s` unit, and
the first unit is not the comment marker `#`. -/
def GoodShape (cs : List Nat) : Prop :=
  ∃ g1 s1 g2 s2 g3 s3 g4,
    cs = g1 ++ s1 :: g2 ++ s2 :: 91 :: g3 ++ 93 :: s3 :: 47 :: g4 ++ [47] ∧
    (∀ x ∈ g1, isDot x = true) ∧ g1 ≠ [] ∧ isWS s1 = true ∧
    (∀ x ∈ g2, isDot x = true) ∧ g2 ≠ [] ∧ isWS s2 = true ∧
    (∀ x ∈ g3, isDot x = true) ∧ g3 ≠ [] ∧ isWS s3 = true ∧
    (∀ x ∈ g4, isDot x = true) ∧ g4 ≠ [] ∧
    cs.head? ≠ some 35

/-- Result observed by one `getInstance` caller when its promise
resolves: either the `Dictionary` field values it can see at that moment,
or a rejection. -/
inductive GOut where
  | resolved (d : Dictionary)
  | rejected
  deriving DecidableEq, Repr

/-- The state of the module-level singleton: `empty` before any call
(`Dictionary.instance` unset); `building` after a first caller has
executed `Dictionary.instance = new Dictionary()` and started
`initialize`, whose fetch is still pending; `ready d` after a successful
initialization; `dead` after the fetch failed (the instance stays set but
is never initialized, and no fetch is pending). -/
inductive SingState where
  | empty
  | building
  | ready (d : Dictionary)
  | dead
  deriving DecidableEq, Repr

/-- Events of the JavaScript event loop relevant to `getInstance`: a
caller invokes `getInstance` (which runs synchronously up to the first
suspension point), the pending fetch-and-parse completes with raw text
`raw`, or the pending fetch fails (rejection or non-ok status). -/
inductive GEvent where
  | call
  | fetchResolve (raw : List Nat)
  | fetchFail

/-- One step of the singleton state machine, returning the new state and
the output delivered to a caller whose promise resolves at this step.  A
`call` in `empty` creates the instance and starts the build; its own
promise resolves only at the later fetch event.  A `call` in `building`
finds `Dictionary.instance` set, so it returns immediately: its caller
observes the field values of the still-uninitialized instance.  A `call`
in `ready d` (or `dead`) likewise returns the current field values
immediately.  `fetchResolve raw` completes the pending build and resolves
the creating caller with the initialized instance; `fetchFail` rejects
the creating caller and leaves the singleton permanently uninitialized.
Fetch events without a pending build do not occur and are no-ops. -/
def gstep : SingState → GEvent → SingState × Option GOut
  | .empty, .call => (.building, none)
  | .building, .call => (.building, some (.resolved newDictionary))
  | .ready d, .call => (.ready d, some (.resolved d))
  | .dead, .call => (.dead, some (.resolved newDictionary))
  | .building, .fetchResolve raw =>
    (.ready (Dictionary.initializeFrom raw), some (.resolved (Dictionary.initializeFrom raw)))
  | .building, .fetchFail => (.dead, some .rejected)
  | s, .fetchResolve _ => (s, none)
  | s, .fetchFail => (s, none)

/-- Run a sequence of events, collecting per-event outputs. -/
def runG : SingState → List GEvent → SingState × List (Option GOut)
  | s, [] => (s, [])
  | s, e :: es =>
    ((runG (gstep s e).1 es).1, (gstep s e).2 :: (runG (gstep s e).1 es).2)

/-- The raw source line `"ab ab [p] /d/"`. -/
def rawSimple : List Nat := [97, 98, 32, 97, 98, 32, 91, 112, 93, 32, 47, 100, 47]

/-- The raw source line `"𠀀 b [p] /d/"`: the traditional headword is the
single non-BMP character U+20000, i.e. the surrogate pair (55360, 56320). -/
def rawSurrogateKey : List Nat :=
  [55360, 56320, 32, 98, 32, 91, 112, 93, 32, 47, 100, 47]

/-- The raw source line `"b b [p] /d/"`. -/
def rawKeyB : List Nat := [98, 32, 98, 32, 91, 112, 93, 32, 47, 100, 47]

/-- The text `"a𠀀b"`: three characters, four code units. -/
def textSurrogate : List Nat := [97, 55360, 56320, 98]

/-- The comment line `"#!comment"`. -/
def commentLine : List Nat := [35, 33, 99, 111, 109, 109, 101, 110, 116]

/-! ### Soundness of the regular-expression matcher -/

theorem p4Term_sound {acc : List Nat} {c : Nat} {rest g4 : List Nat}
    (h : p4Term acc c rest = some g4) :
    c = 47 ∧ rest = [] ∧ g4 = acc.reverse ∧ g4 ≠ [] := by
  unfold p4Term at h
  by_cases hc : c = 47 ∧ rest = [] ∧ acc ≠ []
  · rw [if_pos hc] at h
    obtain ⟨h1, h2, h3⟩ := hc
    have h4 : acc.reverse = g4 := Option.some.inj h
    refine ⟨h1, h2, h4.symm, ?_⟩
    rw [← h4]
    simpa using h3
  · rw [if_neg hc] at h
    exact absurd h (by simp)

theorem p4_sound : ∀ (rest acc g4 : List Nat), p4 acc rest = some g4 →
    ∃ mid, rest = mid ++ [47] ∧ (∀ x ∈ mid, isDot x = true) ∧
      g4 = acc.reverse ++ mid ∧ g4 ≠ [] := by
  intro rest
  induction rest with
  | nil => intro acc g4 h; simp [p4] at h
  | cons c rest ih =>
    intro acc g4 h
    rw [p4] at h
    cases ht : p4Term acc c rest with
    | some r =>
      rw [ht] at h
      have hr : r = g4 := Option.some.inj h
      subst hr
      obtain ⟨hc, hrest, hval, hne⟩ := p4Term_sound ht
      exact ⟨[], by simp [hc, hrest], by simp, by simp [hval], hne⟩
    | none =>
      rw [ht] at h
      by_cases hd : isDot c = true
      · rw [if_pos hd] at h
        obtain ⟨mid, hrest, hdots, hval, hne⟩ := ih (c :: acc) g4 h
        refine ⟨c :: mid, by simp [hrest], ?_, ?_, hne⟩
        · intro x hx
          rcases List.mem_cons.mp hx with hx | hx
          · exact hx ▸ hd
          · exact hdots x hx
        · simp only [List.reverse_cons] at hval
          rw [hval, List.append_assoc]
          rfl
      · rw [if_neg hd] at h
        exact absurd h (by simp)

theorem p3Term_sound {acc : List Nat} {c : Nat} {rest g3 g4 : List Nat}
    (h : p3Term acc c rest = some (g3, g4)) :
    c = 93 ∧ g3 = acc.reverse ∧ g3 ≠ [] ∧
      ∃ s, isWS s = true ∧ rest = s :: 47 :: g4 ++ [47] ∧
        (∀ x ∈ g4, isDot x = true) ∧ g4 ≠ [] := by
  cases rest with
  | nil => simp [p3Term] at h
  | cons s rest1 =>
    cases rest1 with
    | nil => simp [p3Term] at h
    | cons t rest2 =>
      simp only [p3Term] at h
      by_cases hc : c = 93 ∧ acc ≠ [] ∧ isWS s = true ∧ t = 47
      · rw [if_pos hc] at h
        obtain ⟨hc1, hc2, hc3, hc4⟩ := hc
        cases hp : p4 [] rest2 with
        | some g4' =>
          rw [hp] at h
          have hpair : ((acc.reverse, g4') : List Nat × List Nat) = (g3, g4) :=
            Option.some.inj h
          have hg3 : acc.reverse = g3 := congrArg Prod.fst hpair
          have hg4 : g4' = g4 := congrArg Prod.snd hpair
          obtain ⟨mid, hrest2, hdots, hval, hne⟩ := p4_sound rest2 [] g4' hp
          simp only [List.reverse_nil, List.nil_append] at hval
          refine ⟨hc1, hg3.symm, ?_, s, hc3, ?_, ?_, ?_⟩
          · rw [← hg3]; simpa using hc2
          · rw [hc4, hrest2, ← hg4, hval]; simp
          · rw [← hg4, hval]; exact hdots
          · rw [← hg4]; exact hne
        | none => rw [hp] at h; exact absurd h (by simp)
      · rw [if_neg hc] at h
        exact absurd h (by simp)

theorem p3_sound : ∀ (rest acc g3 g4 : List Nat), p3 acc rest = some (g3, g4) →
    ∃ mid s, rest = mid ++ 93 :: s :: 47 :: g4 ++ [47] ∧
      (∀ x ∈ mid, isDot x = true) ∧ g3 = acc.reverse ++ mid ∧ g3 ≠ [] ∧
      isWS s = true ∧ (∀ x ∈ g4, isDot x = true) ∧ g4 ≠ [] := by
  intro rest
  induction rest with
  | nil => intro acc g3 g4 h; simp [p3] at h
  | cons c rest ih =>
    intro acc g3 g4 h
    rw [p3] at h
    cases ht : p3Term acc c rest with
    | some r =>
      rw [ht] at h
      have hr : r = (g3, g4) := Option.some.inj h
      subst hr
      obtain ⟨hc, hg3, hne, s, hws, hrest, hdots4, hne4⟩ := p3Term_sound ht
      exact ⟨[], s, by simp [hc, hrest], by simp, by simp [hg3], hne, hws,
        hdots4, hne4⟩
    | none =>
      rw [ht] at h
      by_cases hd : isDot c = true
      · rw [if_pos hd] at h
        obtain ⟨mid, s, hrest, hdots, hval, hne, hws, hdots4, hne4⟩ :=
          ih (c :: acc) g3 g4 h
        refine ⟨c :: mid, s, by simp [hrest], ?_, ?_, hne, hws, hdots4, hne4⟩
        · intro x hx
          rcases List.mem_cons.mp hx with hx | hx
          · exact hx ▸ hd
          · exact hdots x hx
        · simp only [List.reverse_cons] at hval
          rw [hval, List.append_assoc]
          rfl
      · rw [if_neg hd] at h
        exact absurd h (by simp)

theorem p2Term_sound {acc : List Nat} {c : Nat} {rest g2 g3 g4 : List Nat}
    (h : p2Term acc c rest = some (g2, g3, g4)) :
    isWS c = true ∧ g2 = acc.reverse ∧ g2 ≠ [] ∧
      ∃ rest2, rest = 91 :: rest2 ∧ p3 [] rest2 = some (g3, g4) := by
  cases rest with
  | nil => simp [p2Term] at h
  | cons t rest2 =>
    simp only [p2Term] at h
    by_cases hc : isWS c = true ∧ acc ≠ [] ∧ t = 91
    · rw [if_pos hc] at h
      obtain ⟨hc1, hc2, hc3⟩ := hc
      cases hp : p3 [] rest2 with
      | some r =>
        rw [hp] at h
        obtain ⟨r3, r4⟩ := r
        simp only [Option.some.injEq, Prod.mk.injEq] at h
        obtain ⟨h2, h3, h4⟩ := h
        refine ⟨hc1, h2.symm, ?_, rest2, by rw [hc3], ?_⟩
        · rw [← h2]; simpa using hc2
        · rw [hp, h3, h4]
      | none => rw [hp] at h; exact absurd h (by simp)
    · rw [if_neg hc] at h
      exact absurd h (by simp)

theorem p2_sound : ∀ (rest acc g2 g3 g4 : List Nat),
    p2 acc rest = some (g2, g3, g4) →
    ∃ mid s2 s3, rest = mid ++ s2 :: 91 :: g3 ++ 93 :: s3 :: 47 :: g4 ++ [47] ∧
      (∀ x ∈ mid, isDot x = true) ∧ g2 = acc.reverse ++ mid ∧ g2 ≠ [] ∧
      isWS s2 = true ∧ (∀ x ∈ g3, isDot x = true) ∧ g3 ≠ [] ∧
      isWS s3 = true ∧ (∀ x ∈ g4, isDot x = true) ∧ g4 ≠ [] := by
  intro rest
  induction rest with
  | nil => intro acc g2 g3 g4 h; simp [p2] at h
  | cons c rest ih =>
    intro acc g2 g3 g4 h
    rw [p2] at h
    cases ht : p2Term acc c rest with
    | some r =>
      rw [ht] at h
      have hr : r = (g2, g3, g4) := Option.some.inj h
      subst hr
      obtain ⟨hws, hg2, hne2, rest2, hrest, hp3⟩ := p2Term_sound ht
      obtain ⟨mid3, s3, hrest2, hdots3, hg3, hne3, hws3, hdots4, hne4⟩ :=
        p3_sound rest2 [] g3 g4 hp3
      simp only [List.reverse_nil, List.nil_append] at hg3
      refine ⟨[], c, s3, ?_, by simp, by simp [hg2], hne2, hws, ?_, hne3,
        hws3, hdots4, hne4⟩
      · rw [hrest, hrest2, hg3]; simp
      · rw [hg3]; exact hdots3
    | none =>
      rw [ht] at h
      by_cases hd : isDot c = true
      · rw [if_pos hd] at h
        obtain ⟨mid, s2, s3, hrest, hdots, hval, hne, hws2, hdots3, hne3,
          hws3, hdots4, hne4⟩ := ih (c :: acc) g2 g3 g4 h
        refine ⟨c :: mid, s2, s3, by simp [hrest], ?_, ?_, hne, hws2, hdots3,
          hne3, hws3, hdots4, hne4⟩
        · intro x hx
          rcases List.mem_cons.mp hx with hx | hx
          · exact hx ▸ hd
          · exact hdots x hx
        · simp only [List.reverse_cons] at hval
          rw [hval, List.append_assoc]
          rfl
      · rw [if_neg hd] at h
        exact absurd h (by simp)

theorem p1Term_sound {acc : List Nat} {c : Nat}
    {rest g1 g2 g3 g4 : List Nat}
    (h : p1Term acc c rest = some (g1, g2, g3, g4)) :
    isWS c = true ∧ g1 = acc.reverse ∧ g1 ≠ [] ∧
      p2 [] rest = some (g2, g3, g4) := by
  unfold p1Term at h
  by_cases hc : isWS c = true ∧ acc ≠ []
  · rw [if_pos hc] at h
    cases hp : p2 [] rest with
    | some r =>
      rw [hp] at h
      obtain ⟨r2, r3, r4⟩ := r
      simp only [Option.some.injEq, Prod.mk.injEq] at h
      obtain ⟨h1, h2, h3, h4⟩ := h
      refine ⟨hc.1, h1.symm, ?_, ?_⟩
      · rw [← h1]; simpa using hc.2
      · rw [h2, h3, h4]
    | none => rw [hp] at h; exact absurd h (by simp)
  · rw [if_neg hc] at h
    exact absurd h (by simp)

theorem p1_sound : ∀ (rest acc g1 g2 g3 g4 : List Nat),
    p1 acc rest = some (g1, g2, g3, g4) →
    ∃ mid s1 s2 s3,
      rest = mid ++ s1 :: g2 ++ s2 :: 91 :: g3 ++ 93 :: s3 :: 47 :: g4 ++ [47] ∧
      (∀ x ∈ mid, isDot x = true) ∧ g1 = acc.reverse ++ mid ∧ g1 ≠ [] ∧
      isWS s1 = true ∧ (∀ x ∈ g2, isDot x = true) ∧ g2 ≠ [] ∧
      isWS s2 = true ∧ (∀ x ∈ g3, isDot x = true) ∧ g3 ≠ [] ∧
      isWS s3 = true ∧ (∀ x ∈ g4, isDot x = true) ∧ g4 ≠ [] := by
  intro rest
  induction rest with
  | nil => intro acc g1 g2 g3 g4 h; simp [p1] at h
  | cons c rest ih =>
    intro acc g1 g2 g3 g4 h
    rw [p1] at h
    cases ht : p1Term acc c rest with
    | some r =>
      rw [ht] at h
      have hr : r = (g1, g2, g3, g4) := Option.some.inj h
      subst hr
      obtain ⟨hws, hg1, hne1, hp2⟩ := p1Term_sound ht
      obtain ⟨mid2, s2, s3, hrest, hdots2, hg2, hne2, hws2, hdots3, hne3,
        hws3, hdots4, hne4⟩ := p2_sound rest [] g2 g3 g4 hp2
      simp only [List.reverse_nil, List.nil_append] at hg2
      refine ⟨[], c, s2, s3, ?_, by simp, by simp [hg1], hne1, hws, ?_, hne2,
        hws2, hdots3, hne3, hws3, hdots4, hne4⟩
      · rw [hrest, hg2]; simp
      · rw [hg2]; exact hdots2
    | none =>
      rw [ht] at h
      by_cases hd : isDot c = true
      · rw [if_pos hd] at h
        obtain ⟨mid, s1, s2, s3, hrest, hdots, hval, hne, hws1, hdots2, hne2,
          hws2, hdots3, hne3, hws3, hdots4, hne4⟩ := ih (c :: acc) g1 g2 g3 g4 h
        refine ⟨c :: mid, s1, s2, s3, by simp [hrest], ?_, ?_, hne, hws1,
          hdots2, hne2, hws2, hdots3, hne3, hws3, hdots4, hne4⟩
        · intro x hx
          rcases List.mem_cons.mp hx with hx | hx
          · exact hx ▸ hd
          · exact hdots x hx
        · simp only [List.reverse_cons] at hval
          rw [hval, List.append_assoc]
          rfl
      · rw [if_neg hd] at h
        exact absurd h (by simp)

/-- Soundness of the anchored match: a successful `rmatch` exhibits the
decomposition of the input demanded by the entry shape, with the four
returned capture groups, and the input does not start with `#`. -/
theorem rmatch_sound {cs g1 g2 g3 g4 : List Nat}
    (h : rmatch cs = some (g1, g2, g3, g4)) :
    (∃ s1 s2 s3,
      cs = g1 ++ s1 :: g2 ++ s2 :: 91 :: g3 ++ 93 :: s3 :: 47 :: g4 ++ [47] ∧
      (∀ x ∈ g1, isDot x = true) ∧ g1 ≠ [] ∧ isWS s1 = true ∧
      (∀ x ∈ g2, isDot x = true) ∧ g2 ≠ [] ∧ isWS s2 = true ∧
      (∀ x ∈ g3, isDot x = true) ∧ g3 ≠ [] ∧ isWS s3 = true ∧
      (∀ x ∈ g4, isDot x = true) ∧ g4 ≠ []) ∧
    cs.head? ≠ some 35 := by
  cases cs with
  | nil => simp [rmatch] at h
  | cons c rest =>
    rw [rmatch] at h
    by_cases hc : c = 35
    · rw [if_pos hc] at h; exact absurd h (by simp)
    · rw [if_neg hc] at h
      obtain ⟨mid, s1, s2, s3, hrest, hdots, hval, hne, hws1, hdots2, hne2,
        hws2, hdots3, hne3, hws3, hdots4, hne4⟩ :=
        p1_sound (c :: rest) [] g1 g2 g3 g4 h
      simp only [List.reverse_nil, List.nil_append] at hval
      subst hval
      refine ⟨⟨s1, s2, s3, hrest, hdots, hne, hws1, hdots2, hne2, hws2,
        hdots3, hne3, hws3, hdots4, hne4⟩, ?_⟩
      simp only [List.head?_cons, ne_eq, Option.some.injEq]
      exact hc

/-- A successful `rmatch` certifies the shape predicate. -/
theorem rmatch_goodShape {cs g1 g2 g3 g4 : List Nat}
    (h : rmatch cs = some (g1, g2, g3, g4)) : GoodShape cs := by
  obtain ⟨⟨s1, s2, s3, hrest, hd1, hn1, hw1, hd2, hn2, hw2, hd3, hn3, hw3,
    hd4, hn4⟩, hhead⟩ := rmatch_sound h
  exact ⟨g1, s1, g2, s2, g3, s3, g4, hrest, hd1, hn1, hw1, hd2, hn2, hw2,
    hd3, hn3, hw3, hd4, hn4, hhead⟩

/-! ### Map and construction lemmas -/

theorem mapGet_mapSet : ∀ (m : List (List Nat × DictionaryEntry))
    (k0 : List Nat) (v : DictionaryEntry) (k : List Nat),
    mapGet (mapSet m k0 v) k = if k0 = k then some v else mapGet m k := by
  intro m
  induction m with
  | nil => intro k0 v k; simp [mapSet, mapGet]
  | cons p rest ih =>
    intro k0 v k
    rw [mapSet]
    by_cases hp : p.1 = k0
    · rw [if_pos hp, mapGet]
      by_cases hk : k0 = k
      · simp [hk]
      · rw [if_neg hk, if_neg hk, mapGet, if_neg (by rw [hp]; exact hk)]
    · rw [if_neg hp, mapGet, mapGet, ih]
      by_cases hpk : p.1 = k
      · rw [if_pos hpk, if_pos hpk, if_neg (by rw [← hpk]; exact fun e => hp e.symm)]
      · rw [if_neg hpk, if_neg hpk]

theorem mapSet_mem : ∀ (m : List (List Nat × DictionaryEntry))
    (k0 : List Nat) (v : DictionaryEntry) (q : List Nat × DictionaryEntry),
    q ∈ mapSet m k0 v → q = (k0, v) ∨ q ∈ m := by
  intro m
  induction m with
  | nil => intro k0 v q hq; simp [mapSet] at hq; simp [hq]
  | cons p rest ih =>
    intro k0 v q hq
    rw [mapSet] at hq
    by_cases hp : p.1 = k0
    · rw [if_pos hp] at hq
      rcases List.mem_cons.mp hq with hq | hq
      · exact Or.inl hq
      · exact Or.inr (List.mem_cons_of_mem p hq)
    · rw [if_neg hp] at hq
      rcases List.mem_cons.mp hq with hq | hq
      · exact Or.inr (hq ▸ List.mem_cons_self p rest)
      · rcases ih k0 v q hq with hq | hq
        · exact Or.inl hq
        · exact Or.inr (List.mem_cons_of_mem p hq)

theorem mapGet_mem : ∀ (m : List (List Nat × DictionaryEntry))
    (k : List Nat) (v : DictionaryEntry), mapGet m k = some v → (k, v) ∈ m := by
  intro m
  induction m with
  | nil => intro k v h; simp [mapGet] at h
  | cons p rest ih =>
    intro k v h
    rw [mapGet] at h
    by_cases hp : p.1 = k
    · rw [if_pos hp] at h
      have : p.2 = v := Option.some.inj h
      exact List.mem_cons.mpr (Or.inl (by rw [← hp, ← this]))
    · rw [if_neg hp] at h
      exact List.mem_cons_of_mem p (ih k v h)

theorem mapHas_of_mem : ∀ (m : List (List Nat × DictionaryEntry))
    (k : List Nat) (v : DictionaryEntry), (k, v) ∈ m → mapHas m k = true := by
  intro m
  induction m with
  | nil => intro k v h; simp at h
  | cons p rest ih =>
    intro k v h
    rcases List.mem_cons.mp h with h | h
    · rw [mapHas, mapGet, if_pos (by rw [← h])]
      rfl
    · rw [mapHas, mapGet]
      by_cases hp : p.1 = k
      · rw [if_pos hp]; rfl
      · rw [if_neg hp]; exact ih k v h

theorem mapHas_some : ∀ (m : List (List Nat × DictionaryEntry))
    (k : List Nat), mapHas m k = true → ∃ v, mapGet m k = some v := by
  intro m k h
  rw [mapHas] at h
  cases hg : mapGet m k with
  | some v => exact ⟨v, rfl⟩
  | none => rw [hg] at h; simp at h

/-- A parsed entry exposes its capture groups: the headwords and pinyin
are capture groups 1 to 3, and the definitions are capture group 4 split
on `/` with empty pieces dropped. -/
theorem parseLine_inv {line : List Nat} {e : DictionaryEntry}
    (h : Dictionary.parseLine line = some e) :
    ∃ g, rmatch (trim line) = some (e.traditional, e.simplified, e.pinyin, g) ∧
      e.definitions = (splitOn 47 g).filter (fun d => decide (d.length > 0)) := by
  unfold Dictionary.parseLine at h
  cases hr : rmatch (trim line) with
  | some r =>
    obtain ⟨t, s, p, g⟩ := r
    rw [hr] at h
    simp only [Option.some.injEq] at h
    refine ⟨g, ?_, ?_⟩
    · rw [← h]
    · rw [← h]
  | none => rw [hr] at h; exact absurd h (by simp)

/-- The headwords of a parsed entry are non-empty strings of `.`-matched
units. -/
theorem parseLine_heads {line : List Nat} {e : DictionaryEntry}
    (h : Dictionary.parseLine line = some e) :
    e.traditional ≠ [] ∧ e.simplified ≠ [] := by
  obtain ⟨g, hr, _⟩ := parseLine_inv h
  obtain ⟨⟨s1, s2, s3, _, _, hn1, _, _, hn2, _⟩, _⟩ := rmatch_sound hr
  exact ⟨hn1, hn2⟩

theorem buildEntries_keys_aux : ∀ (lines : List (List Nat))
    (m : List (List Nat × DictionaryEntry)),
    (∀ q ∈ m, q.1 ≠ []) → ∀ q ∈ lines.foldl insLine m, q.1 ≠ [] := by
  intro lines
  induction lines with
  | nil => intro m hm q hq; exact hm q hq
  | cons line rest ih =>
    intro m hm q hq
    rw [List.foldl_cons] at hq
    refine ih (insLine m line) ?_ q hq
    intro q' hq'
    rw [insLine] at hq'
    cases hp : Dictionary.parseLine line with
    | some entry =>
      rw [hp] at hq'
      obtain ⟨hts, hss⟩ := parseLine_heads hp
      rcases mapSet_mem _ _ _ _ hq' with hq' | hq'
      · rw [hq']; exact hss
      · rcases mapSet_mem _ _ _ _ hq' with hq' | hq'
        · rw [hq']; exact hts
        · exact hm q' hq'
    | none => rw [hp] at hq'; exact hm q' hq'

/-- Every key of a built index is a non-empty string. -/
theorem initialize_keys_ne_nil (rawData : List Nat) :
    ∀ q ∈ (Dictionary.initializeFrom rawData).entries, q.1 ≠ [] := by
  intro q hq
  exact buildEntries_keys_aux (splitOn 10 rawData) [] (by simp) q hq

theorem maxKeyLen_ge_init : ∀ (m : List (List Nat × DictionaryEntry)) (a : Nat),
    a ≤ m.foldl (fun acc p => if p.1.length > acc then p.1.length else acc) a := by
  intro m
  induction m with
  | nil => intro a; simp
  | cons p rest ih =>
    intro a
    rw [List.foldl_cons]
    refine le_trans ?_ (ih _)
    by_cases hp : p.1.length > a
    · rw [if_pos hp]; omega
    · rw [if_neg hp]

theorem maxKeyLen_bound_aux : ∀ (m : List (List Nat × DictionaryEntry))
    (a : Nat) (q : List Nat × DictionaryEntry), q ∈ m →
    q.1.length ≤ m.foldl (fun acc p => if p.1.length > acc then p.1.length else acc) a := by
  intro m
  induction m with
  | nil => intro a q hq; simp at hq
  | cons p rest ih =>
    intro a q hq
    rw [List.foldl_cons]
    rcases List.mem_cons.mp hq with hq | hq
    · refine le_trans ?_ (maxKeyLen_ge_init rest _)
      rw [hq]
      by_cases hp : p.1.length > a
      · rw [if_pos hp]
      · rw [if_neg hp]; omega
    · exact ih _ q hq

theorem maxKeyLen_attained_aux : ∀ (m : List (List Nat × DictionaryEntry))
    (a : Nat),
    m.foldl (fun acc p => if p.1.length > acc then p.1.length else acc) a = a ∨
      ∃ q ∈ m, m.foldl (fun acc p => if p.1.length > acc then p.1.length else acc) a
        = q.1.length := by
  intro m
  induction m with
  | nil => intro a; simp
  | cons p rest ih =>
    intro a
    rw [List.foldl_cons]
    rcases ih (if p.1.length > a then p.1.length else a) with h | ⟨q, hq, h⟩
    · by_cases hp : p.1.length > a
      · rw [if_pos hp] at h ⊢
        exact Or.inr ⟨p, List.mem_cons_self p rest, h⟩
      · rw [if_neg hp] at h ⊢
        exact Or.inl h
    · exact Or.inr ⟨q, List.mem_cons_of_mem p hq, h⟩

/-- Every key length is bounded by the stored `maxKeyLength`. -/
theorem initialize_maxKeyLength_bound (rawData : List Nat) :
    ∀ q ∈ (Dictionary.initializeFrom rawData).entries,
      q.1.length ≤ (Dictionary.initializeFrom rawData).maxKeyLength := by
  intro q hq
  exact maxKeyLen_bound_aux _ 0 q hq

/-! ### The candidate-length scan -/

theorem flmLoop_sound : ∀ (n : Nat) (ent : List (List Nat × DictionaryEntry))
    (text : List Nat) (si : Nat) (m : List Nat),
    flmLoop ent text si n = some m →
    ∃ L, 1 ≤ L ∧ L ≤ n ∧ si + L ≤ text.length ∧
      m = (text.drop si).take L ∧ mapHas ent m = true ∧
      ∀ L', L < L' → L' ≤ n → si + L' ≤ text.length →
        mapHas ent ((text.drop si).take L') = false := by
  intro n
  induction n with
  | zero => intro ent text si m h; simp [flmLoop] at h
  | succ n ih =>
    intro ent text si m h
    rw [flmLoop] at h
    by_cases hb : si + (n + 1) ≤ text.length
    · rw [if_pos hb] at h
      by_cases hh : mapHas ent ((text.drop si).take (n + 1)) = true
      · rw [if_pos hh] at h
        have hm : (text.drop si).take (n + 1) = m := Option.some.inj h
        refine ⟨n + 1, by omega, le_refl _, hb, hm.symm, hm ▸ hh, ?_⟩
        intro L' h1 h2 _
        omega
      · rw [if_neg hh] at h
        obtain ⟨L, hL1, hL2, hL3, hL4, hL5, hL6⟩ := ih ent text si m h
        refine ⟨L, hL1, by omega, hL3, hL4, hL5, ?_⟩
        intro L' h1 h2 h3
        by_cases hL' : L' = n + 1
        · rw [hL']
          exact Bool.not_eq_true _ ▸ (by simpa using hh)
        · exact hL6 L' h1 (by omega) h3
    · rw [if_neg hb] at h
      obtain ⟨L, hL1, hL2, hL3, hL4, hL5, hL6⟩ := ih ent text si m h
      refine ⟨L, hL1, by omega, hL3, hL4, hL5, ?_⟩
      intro L' h1 h2 h3
      by_cases hL' : L' = n + 1
      · omega
      · exact hL6 L' h1 (by omega) h3

theorem flmLoop_none : ∀ (n : Nat) (ent : List (List Nat × DictionaryEntry))
    (text : List Nat) (si : Nat),
    flmLoop ent text si n = none →
    ∀ L, 1 ≤ L → L ≤ n → si + L ≤ text.length →
      mapHas ent ((text.drop si).take L) = false := by
  intro n
  induction n with
  | zero => intro ent text si _ L h1 h2; omega
  | succ n ih =>
    intro ent text si h L h1 h2 h3
    rw [flmLoop] at h
    by_cases hb : si + (n + 1) ≤ text.length
    · rw [if_pos hb] at h
      by_cases hh : mapHas ent ((text.drop si).take (n + 1)) = true
      · rw [if_pos hh] at h; exact absurd h (by simp)
      · rw [if_neg hh] at h
        by_cases hL : L = n + 1
        · rw [hL]; simpa using hh
        · exact ih ent text si h L h1 (by omega) h3
    · rw [if_neg hb] at h
      by_cases hL : L = n + 1
      · omega
      · exact ih ent text si h L h1 (by omega) h3

/-- Any match returned by `findLongestMatch` is a non-empty in-bounds
substring of the text starting at the query position, and is a key of the
map.  This holds for every dictionary state. -/
theorem flm_spec {d : Dictionary} {text : List Nat} {i : Nat} {m : List Nat}
    (h : d.findLongestMatch text i = some m) :
    0 < m.length ∧ i + m.length ≤ text.length ∧
      m = (text.drop i).take m.length ∧ mapHas d.entries m = true := by
  unfold Dictionary.findLongestMatch at h
  by_cases hi : d.isInitialized = true
  · rw [if_pos hi] at h
    obtain ⟨L, hL1, _, hL3, hL4, hL5, _⟩ := flmLoop_sound _ _ _ _ _ h
    have hlen : m.length = L := by
      rw [hL4, List.length_take, List.length_drop]
      omega
    refine ⟨by omega, by omega, ?_, hL5⟩
    rw [hlen]
    exact hL4
  · rw [if_neg hi] at h
    exact absurd h (by simp)

/-- Correctness of the `InteractiveText` loop from any start position:
with enough fuel (the loop advances by at least one position per
iteration), the emitted segments concatenate to the remaining text, chain
contiguously up to the end of the text, and each segment's content is the
slice of the text it covers. -/
theorem segmentsFrom_spec (d : Dictionary) (text : List Nat) :
    ∀ (fuel i : Nat), i ≤ text.length → text.length - i ≤ fuel →
      ((segmentsFrom d text fuel i).map Segment.content).flatten = text.drop i ∧
      SegChain text.length i (segmentsFrom d text fuel i) ∧
      ∀ s ∈ segmentsFrom d text fuel i,
        s.content = (text.drop s.startIndex).take s.content.length := by
  intro fuel
  induction fuel with
  | zero =>
    intro i hle hfuel
    have hi : i = text.length := by omega
    subst hi
    exact ⟨by simp [segmentsFrom, List.drop_length], by simp [segmentsFrom, SegChain],
      by simp [segmentsFrom]⟩
  | succ n ih =>
    intro i hle hfuel
    by_cases h : i < text.length
    · rw [segmentsFrom, dif_pos h]
      cases hm : d.findLongestMatch text i with
      | some m =>
        obtain ⟨hpos, hbound, hsub, _⟩ := flm_spec hm
        obtain ⟨ihj, ihc, ihs⟩ := ih (i + m.length) (by omega) (by omega)
        have hdd : text.drop (i + m.length) = (text.drop i).drop m.length := by
          rw [List.drop_drop, Nat.add_comm]
        refine ⟨?_, ?_, ?_⟩
        · simp only [List.map_cons, List.flatten_cons, ihj, hdd]
          nth_rewrite 1 [hsub]
          exact List.take_append_drop _ _
        · refine ⟨rfl, ?_, ihc⟩
          show m ≠ []
          intro hnil
          rw [hnil] at hpos
          simp at hpos
        · intro s hs
          rcases List.mem_cons.mp hs with hs | hs
          · rw [hs]
            exact hsub
          · exact ihs s hs
      | none =>
        have hdrop : text.drop i = text.get ⟨i, h⟩ :: text.drop (i + 1) := by
          rw [List.drop_eq_getElem_cons h]
          simp [List.get_eq_getElem]
        obtain ⟨ihj, ihc, ihs⟩ := ih (i + 1) (by omega) (by omega)
        refine ⟨?_, ?_, ?_⟩
        · simp only [List.map_cons, List.flatten_cons, ihj, hdrop]
          rfl
        · exact ⟨rfl, by simp, ihc⟩
        · intro s hs
          rcases List.mem_cons.mp hs with hs | hs
          · rw [hs]
            simp only [hdrop]
            rfl
          · exact ihs s hs
    · rw [segmentsFrom, dif_neg h]
      have hi : i = text.length := by omega
      subst hi
      exact ⟨by simp [List.drop_length], by simp [SegChain], by simp⟩

/-! ### Last-write-wins characterization of the built map -/

theorem lastVal_shift : ∀ (b : List (List Nat × DictionaryEntry))
    (o : Option DictionaryEntry) (k : List Nat),
    b.foldl (fun acc p => if p.1 = k then some p.2 else acc) o =
      match lastVal b k with
      | some v => some v
      | none => o := by
  intro b
  induction b with
  | nil => intro o k; simp [lastVal]
  | cons q b ih =>
    intro o k
    have hL : List.foldl (fun acc p => if p.1 = k then some p.2 else acc) o (q :: b)
        = match lastVal b k with
          | some v => some v
          | none => if q.1 = k then some q.2 else o := by
      rw [List.foldl_cons, ih]
    have hR : lastVal (q :: b) k
        = match lastVal b k with
          | some v => some v
          | none => if q.1 = k then some q.2 else none := by
      rw [lastVal, List.foldl_cons, ih]
    rw [hL, hR]
    cases lastVal b k with
    | some v => rfl
    | none =>
      by_cases hq : q.1 = k
      · simp [hq]
      · simp [hq]

theorem lastVal_cons (q : List Nat × DictionaryEntry)
    (b : List (List Nat × DictionaryEntry)) (k : List Nat) :
    lastVal (q :: b) k =
      match lastVal b k with
      | some v => some v
      | none => if q.1 = k then some q.2 else none := by
  rw [lastVal, List.foldl_cons, lastVal_shift]

theorem lastVal_append (a b : List (List Nat × DictionaryEntry)) (k : List Nat) :
    lastVal (a ++ b) k =
      match lastVal b k with
      | some v => some v
      | none => lastVal a k := by
  rw [lastVal, List.foldl_append, lastVal_shift]
  rfl

theorem lastVal_isSome : ∀ (s : List (List Nat × DictionaryEntry)) (k : List Nat),
    (lastVal s k).isSome = true ↔ ∃ p ∈ s, p.1 = k := by
  intro s
  induction s with
  | nil => intro k; simp [lastVal]
  | cons q s ih =>
    intro k
    rw [lastVal_cons]
    cases hs : lastVal s k with
    | some v =>
      simp only [Option.isSome_some, true_iff]
      have : ∃ p ∈ s, p.1 = k := (ih k).mp (by rw [hs]; rfl)
      obtain ⟨p, hp, hpk⟩ := this
      exact ⟨p, List.mem_cons_of_mem q hp, hpk⟩
    | none =>
      by_cases hq : q.1 = k
      · simp only [if_pos hq, Option.isSome_some, true_iff]
        exact ⟨q, List.mem_cons_self q s, hq⟩
      · simp only [if_neg hq, Option.isSome_none]
        constructor
        · intro hfalse; exact absurd hfalse (by simp)
        · intro ⟨p, hp, hpk⟩
          rcases List.mem_cons.mp hp with hp | hp
          · exact absurd (hp ▸ hpk) hq
          · have : (lastVal s k).isSome = true := (ih k).mpr ⟨p, hp, hpk⟩
            rw [hs] at this
            exact absurd this (by simp)

theorem mapGet_insLine (m : List (List Nat × DictionaryEntry))
    (line : List Nat) (k : List Nat) :
    mapGet (insLine m line) k =
      match lastVal (insertsOf line) k with
      | some v => some v
      | none => mapGet m k := by
  cases hp : Dictionary.parseLine line with
  | some e =>
    rw [insLine, hp, insertsOf, hp]
    rw [mapGet_mapSet, mapGet_mapSet]
    rw [lastVal_cons, lastVal_cons]
    simp only [lastVal]
    by_cases hs : e.simplified = k
    · simp [hs]
    · by_cases ht : e.traditional = k
      · simp [hs, ht]
      · simp [hs, ht]
  | none =>
    rw [insLine, hp, insertsOf, hp]
    simp [lastVal]

theorem buildEntries_lastVal : ∀ (lines : List (List Nat))
    (m : List (List Nat × DictionaryEntry)) (k : List Nat),
    mapGet (lines.foldl insLine m) k =
      match lastVal (insertSeq lines) k with
      | some v => some v
      | none => mapGet m k := by
  intro lines
  induction lines with
  | nil => intro m k; simp [insertSeq, lastVal]
  | cons l ls ih =>
    intro m k
    rw [List.foldl_cons, ih]
    have hseq : insertSeq (l :: ls) = insertsOf l ++ insertSeq ls := by
      rw [insertSeq, List.map_cons, List.flatten_cons, insertSeq]
    rw [hseq, lastVal_append, mapGet_insLine]
    cases lastVal (insertSeq ls) k with
    | some v => rfl
    | none =>
      cases lastVal (insertsOf l) k with
      | some v => rfl
      | none => rfl

/-! ### General behaviour of findLongestMatch on a well-formed dictionary -/

theorem flm_general_exists {d : Dictionary} (hinit : d.isInitialized = true)
    (hkeys : ∀ q ∈ d.entries, q.1 ≠ [])
    (hbound : ∀ q ∈ d.entries, q.1.length ≤ d.maxKeyLength)
    {text : List Nat} {i L : Nat} (hiL : i + L ≤ text.length)
    (hhas : mapHas d.entries ((text.drop i).take L) = true) :
    ∃ m, d.findLongestMatch text i = some m ∧ mapHas d.entries m = true ∧
      m = (text.drop i).take m.length ∧ i + m.length ≤ text.length ∧
      L ≤ m.length := by
  obtain ⟨v, hv⟩ := mapHas_some _ _ hhas
  have hmem := mapGet_mem _ _ _ hv
  have hsublen : ((text.drop i).take L).length = L := by
    rw [List.length_take, List.length_drop]
    omega
  have hL1 : 1 ≤ L := by
    have hne := hkeys _ hmem
    simp only at hne
    have : ((text.drop i).take L).length ≠ 0 := by
      intro h0
      exact hne (List.eq_nil_of_length_eq_zero h0)
    omega
  have hLmax : L ≤ d.maxKeyLength := by
    have := hbound _ hmem
    simp only at this
    rw [hsublen] at this
    exact this
  unfold Dictionary.findLongestMatch
  rw [if_pos hinit]
  cases hres : flmLoop d.entries text i d.maxKeyLength with
  | none =>
    have := flmLoop_none _ _ _ _ hres L hL1 hLmax hiL
    rw [hhas] at this
    exact absurd this (by simp)
  | some m =>
    obtain ⟨Lm, hLm1, hLm2, hLm3, hLm4, hLm5, hLm6⟩ :=
      flmLoop_sound _ _ _ _ _ hres
    have hlen : m.length = Lm := by
      rw [hLm4, List.length_take, List.length_drop]
      omega
    refine ⟨m, rfl, hLm5, ?_, by omega, ?_⟩
    · rw [hlen]; exact hLm4
    · by_contra hcon
      push_neg at hcon
      rw [hlen] at hcon
      have := hLm6 L hcon hLmax hiL
      rw [hhas] at this
      exact absurd this (by simp)

theorem flm_general_none {d : Dictionary} (hinit : d.isInitialized = true)
    {text : List Nat} {i : Nat}
    (hnone : ∀ L, 1 ≤ L → L ≤ d.maxKeyLength → i + L ≤ text.length →
      mapHas d.entries ((text.drop i).take L) = false) :
    d.findLongestMatch text i = none := by
  unfold Dictionary.findLongestMatch
  rw [if_pos hinit]
  cases hres : flmLoop d.entries text i d.maxKeyLength with
  | none => rfl
  | some m =>
    obtain ⟨Lm, hLm1, hLm2, hLm3, hLm4, hLm5, _⟩ := flmLoop_sound _ _ _ _ _ hres
    have := hnone Lm hLm1 hLm2 hLm3
    rw [← hLm4] at this
    rw [hLm5] at this
    exact absurd this (by simp)

/-! ### Claim theorems -/

/-- Claim C1: maximal munch.  For every built index, text and position
`i` with `0 ≤ i ≤ length text`: if any key of length `L` of the index
equals `text[i .. i+L)` with `i + L ≤ length text`, then
`findLongestMatch text i` returns a matching key-substring whose length
is maximal among all such `L`; and if no key of any length in
`[1, maxKeyLength]` matches within bounds, it returns null. -/
theorem findLongestMatch_maximalMunch (rawData text : List Nat) (i : Nat)
    (hi : i ≤ text.length) :
    (∀ L, i + L ≤ text.length →
        mapHas (Dictionary.initializeFrom rawData).entries
          ((text.drop i).take L) = true →
        ∃ m, (Dictionary.initializeFrom rawData).findLongestMatch text i = some m ∧
          mapHas (Dictionary.initializeFrom rawData).entries m = true ∧
          m = (text.drop i).take m.length ∧ i + m.length ≤ text.length ∧
          L ≤ m.length) ∧
    ((∀ L, 1 ≤ L → L ≤ (Dictionary.initializeFrom rawData).maxKeyLength →
        i + L ≤ text.length →
        mapHas (Dictionary.initializeFrom rawData).entries
          ((text.drop i).take L) = false) →
      (Dictionary.initializeFrom rawData).findLongestMatch text i = none) := by
  constructor
  · intro L hiL hhas
    exact flm_general_exists rfl (initialize_keys_ne_nil rawData)
      (initialize_maxKeyLength_bound rawData) hiL hhas
  · intro hnone
    exact flm_general_none rfl hnone

theorem findLongestMatch_maximalMunch_witness :
    ∃ m, (Dictionary.initializeFrom rawSimple).findLongestMatch [97, 98, 99] 0
        = some m ∧
      mapHas (Dictionary.initializeFrom rawSimple).entries m = true ∧
      m = (([97, 98, 99] : List Nat).drop 0).take m.length ∧
      0 + m.length ≤ ([97, 98, 99] : List Nat).length ∧ 2 ≤ m.length :=
  (findLongestMatch_maximalMunch rawSimple [97, 98, 99] 0 (by decide)).1 2
    (by decide) (by decide)

/-- Claim C2: round-trip segmentation.  For every dictionary state and
every text, the `InteractiveText` loop produces segments whose
concatenated contents equal the text exactly, which chain contiguously
and without overlap over `[0, length text)`, and each of which carries
exactly the slice of the text it covers. -/
theorem interactiveText_roundTrip (d : Dictionary) (text : List Nat) :
    ((interactiveTextSegments d text).map Segment.content).flatten = text ∧
    SegChain text.length 0 (interactiveTextSegments d text) ∧
    ∀ s ∈ interactiveTextSegments d text,
      s.content = (text.drop s.startIndex).take s.content.length := by
  obtain ⟨h1, h2, h3⟩ := segmentsFrom_spec d text text.length 0 (by omega) (by omega)
  refine ⟨?_, h2, h3⟩
  rw [interactiveTextSegments, h1, List.drop_zero]

/-- Claim C3: dual-key insertion with last-write-wins.  The value stored
under any key of the built map is exactly the value of the
chronologically last insertion using that key, where the insertions are,
for each line parsing to an entry, the entry under its traditional key
followed by the entry under its simplified key; a key is present in the
map exactly when some insertion used it.  No error is ever raised: the
construction is a total function. -/
theorem initialize_lastWriteWins (rawData k : List Nat) :
    mapGet (Dictionary.initializeFrom rawData).entries k
      = lastVal (insertSeq (splitOn 10 rawData)) k ∧
    (mapHas (Dictionary.initializeFrom rawData).entries k = true ↔
      ∃ p ∈ insertSeq (splitOn 10 rawData), p.1 = k) := by
  have h1 : mapGet (Dictionary.initializeFrom rawData).entries k
      = lastVal (insertSeq (splitOn 10 rawData)) k := by
    have h := buildEntries_lastVal (splitOn 10 rawData) [] k
    show mapGet ((splitOn 10 rawData).foldl insLine []) k = _
    rw [h]
    cases lastVal (insertSeq (splitOn 10 rawData)) k with
    | some v => rfl
    | none => rfl
  refine ⟨h1, ?_⟩
  rw [mapHas, h1]
  exact lastVal_isSome _ k

/-- Claim C4: parse rejection.  `parseLine` trims its input; if the
trimmed line starts with the comment marker `#`, or does not decompose
according to the entry shape
`<traditional> <simplified> [<pronunciation>] /<defs>/`, the result is
null — parsing is a total function, no error is raised. -/
theorem parseLine_rejects (line : List Nat)
    (h : (trim line).head? = some 35 ∨ ¬ GoodShape (trim line)) :
    Dictionary.parseLine line = none := by
  unfold Dictionary.parseLine
  cases hr : rmatch (trim line) with
  | none => rfl
  | some r =>
    obtain ⟨g1, g2, g3, g4⟩ := r
    exfalso
    obtain ⟨_, hhead⟩ := rmatch_sound hr
    rcases h with h | h
    · exact hhead h
    · exact h (rmatch_goodShape hr)

theorem parseLine_rejects_witness :
    Dictionary.parseLine commentLine = none :=
  parseLine_rejects commentLine (Or.inl (by decide))

/-- Claim C5: parse success postcondition.  A non-null parse has
non-empty traditional and simplified headwords, its definitions are the
fourth capture group split on `/` with all empty substrings discarded
(hence no definition is empty), and the definitions are non-empty
whenever the gloss capture contains at least one non-empty piece. -/
theorem parseLine_success_post (line : List Nat) (e : DictionaryEntry)
    (h : Dictionary.parseLine line = some e) :
    e.traditional ≠ [] ∧ e.simplified ≠ [] ∧
    ∃ g, rmatch (trim line) = some (e.traditional, e.simplified, e.pinyin, g) ∧
      e.definitions = (splitOn 47 g).filter (fun d => decide (d.length > 0)) ∧
      (∀ d ∈ e.definitions, d ≠ []) ∧
      ((∃ x ∈ splitOn 47 g, x ≠ []) → e.definitions ≠ []) := by
  obtain ⟨ht, hs⟩ := parseLine_heads h
  obtain ⟨g, hr, hdefs⟩ := parseLine_inv h
  refine ⟨ht, hs, g, hr, hdefs, ?_, ?_⟩
  · intro d hd
    rw [hdefs] at hd
    have hmem := List.mem_filter.mp hd
    intro hnil
    rw [hnil] at hmem
    simp at hmem
  · intro ⟨x, hx, hxne⟩
    rw [hdefs]
    intro hnilfilter
    have hxf : x ∈ (splitOn 47 g).filter (fun d => decide (d.length > 0)) := by
      refine List.mem_filter.mpr ⟨hx, ?_⟩
      simpa using List.length_pos.mpr hxne
    rw [hnilfilter] at hxf
    simp at hxf

theorem parseLine_success_post_witness :
    (⟨[97, 98], [97, 98], [112], [[100]]⟩ : DictionaryEntry).traditional ≠ [] ∧
    (⟨[97, 98], [97, 98], [112], [[100]]⟩ : DictionaryEntry).simplified ≠ [] :=
  ⟨(parseLine_success_post rawSimple ⟨[97, 98], [97, 98], [112], [[100]]⟩
      (by decide)).1,
   (parseLine_success_post rawSimple ⟨[97, 98], [97, 98], [112], [[100]]⟩
      (by decide)).2.1⟩

/-- Claim C6 counterexample: building from the single source line
`"𠀀 b [p] /d/"` (whose traditional headword is one character encoded as
a surrogate pair) stores `maxKeyLength = 2`, the code-unit length, while
the maximum character-length over the keys of the mapping is 1; so
`maxKeyLength` does not equal the maximum character-length as the claim
states. -/
theorem maxKeyLength_charLength_counterexample :
    (Dictionary.initializeFrom rawSurrogateKey).maxKeyLength = 2 ∧
    maxCharLen (Dictionary.initializeFrom rawSurrogateKey).entries = 1 ∧
    ¬ ((Dictionary.initializeFrom rawSurrogateKey).maxKeyLength
        = maxCharLen (Dictionary.initializeFrom rawSurrogateKey).entries) := by
  decide

/-- Claim C6 (amended): after construction, the stored `maxKeyLength`
equals the maximum UTF-16 code-unit length (JavaScript `.length`) over
all keys present in the mapping, and equals 0 when the mapping is
empty. -/
theorem maxKeyLength_correct (rawData : List Nat) :
    ((Dictionary.initializeFrom rawData).entries = [] →
      (Dictionary.initializeFrom rawData).maxKeyLength = 0) ∧
    (∀ q ∈ (Dictionary.initializeFrom rawData).entries,
      q.1.length ≤ (Dictionary.initializeFrom rawData).maxKeyLength) ∧
    ((Dictionary.initializeFrom rawData).entries ≠ [] →
      ∃ q ∈ (Dictionary.initializeFrom rawData).entries,
        q.1.length = (Dictionary.initializeFrom rawData).maxKeyLength) := by
  refine ⟨?_, initialize_maxKeyLength_bound rawData, ?_⟩
  · intro hempty
    show maxKeyLen (buildEntries (splitOn 10 rawData)) = 0
    have he : buildEntries (splitOn 10 rawData) = [] := hempty
    rw [he]
    rfl
  · intro hne
    rcases maxKeyLen_attained_aux (buildEntries (splitOn 10 rawData)) 0 with
      h | ⟨q, hq, h⟩
    · cases hm : (Dictionary.initializeFrom rawData).entries with
      | nil => exact absurd hm hne
      | cons q0 rest =>
        have hq0 : q0 ∈ (Dictionary.initializeFrom rawData).entries := by
          rw [hm]; exact List.mem_cons_self q0 rest
        have hb := initialize_maxKeyLength_bound rawData q0 hq0
        have hz : (Dictionary.initializeFrom rawData).maxKeyLength = 0 := h
        exact ⟨q0, List.mem_cons_self q0 rest, by omega⟩
    · exact ⟨q, hq, h.symm⟩

theorem maxKeyLength_correct_witness :
    (Dictionary.initializeFrom []).maxKeyLength = 0 ∧
    ∃ q ∈ (Dictionary.initializeFrom rawSimple).entries,
      q.1.length = (Dictionary.initializeFrom rawSimple).maxKeyLength :=
  ⟨(maxKeyLength_correct []).1 (by decide),
   (maxKeyLength_correct rawSimple).2.2 (by decide)⟩

/-- Claim C7 counterexample: with the single key `"b"` loaded, the text
`"a𠀀b"` and start position 2: the key `"b"` has character-length 1 and
equals the one character of the text at character position 2 (which is in
bounds, the text having 3 characters), yet `findLongestMatch` returns
null, because positions and lengths in the code are UTF-16 code-unit
counts and code unit 2 is the low half of the surrogate pair. -/
theorem findLongestMatch_charPosition_counterexample :
    mapHas (Dictionary.initializeFrom rawKeyB).entries [98] = true ∧
    charCount [98] = 1 ∧
    ((utf16Chars textSurrogate).drop 2).take 1 = [[98]] ∧
    2 + 1 ≤ charCount textSurrogate ∧
    (Dictionary.initializeFrom rawKeyB).findLongestMatch textSurrogate 2 = none := by
  decide

/-- Claim C7 (amended): `findLongestMatch` interprets positions and
candidate lengths as UTF-16 code-unit counts (JavaScript string
indexing), which coincide with character counts exactly on
surrogate-free text: for a built index it returns a match precisely when
some key equals the `L` code units of the text beginning at code-unit
position `start_index`, for some `L` with `start_index + L ≤ length`. -/
theorem findLongestMatch_codeUnitIndexing (rawData text : List Nat) (i : Nat)
    (hi : i ≤ text.length) :
    ((Dictionary.initializeFrom rawData).findLongestMatch text i).isSome = true ↔
      ∃ L, i + L ≤ text.length ∧
        mapHas (Dictionary.initializeFrom rawData).entries
          ((text.drop i).take L) = true := by
  constructor
  · intro h
    obtain ⟨m, hm⟩ := Option.isSome_iff_exists.mp h
    obtain ⟨hpos, hbound, hsub, hhas⟩ := flm_spec hm
    refine ⟨m.length, hbound, ?_⟩
    rw [← hsub]
    exact hhas
  · intro ⟨L, hiL, hhas⟩
    obtain ⟨m, hm, _⟩ := flm_general_exists rfl (initialize_keys_ne_nil rawData)
      (initialize_maxKeyLength_bound rawData) hiL hhas
    rw [hm]
    rfl

theorem findLongestMatch_codeUnitIndexing_witness :
    ((Dictionary.initializeFrom rawSimple).findLongestMatch [97, 98, 99] 0).isSome
      = true :=
  (findLongestMatch_codeUnitIndexing rawSimple [97, 98, 99] 0 (by decide)).mpr
    ⟨2, by decide, by decide⟩

/-- Claim C8: use-before-ready.  On an instance whose construction has
not completed (`isInitialized = false`), `get` returns the not-found
outcome for every key and records the `console.error` diagnostic (the
Boolean component), and `findLongestMatch` returns null for every
argument; no other behaviour is possible. -/
theorem notReady_guarded (d : Dictionary) (h : d.isInitialized = false) :
    (∀ k, d.get k = (none, true)) ∧
    (∀ text i, d.findLongestMatch text i = none) := by
  constructor
  · intro k
    simp [Dictionary.get, h]
  · intro text i
    simp [Dictionary.findLongestMatch, h]

theorem notReady_guarded_witness :
    newDictionary.get [98] = (none, true) ∧
      newDictionary.findLongestMatch [97] 0 = none :=
  ⟨(notReady_guarded newDictionary rfl).1 [98],
   (notReady_guarded newDictionary rfl).2 [97] 0⟩

/-- Claim C9 (divergence from the documented behaviour): running the
event sequence "caller A invokes getInstance, caller B invokes
getInstance while A's fetch is pending, the fetch resolves": the build is
started only once, caller A receives the initialized instance, but caller
B's promise resolves immediately — during the in-flight build — with the
still-uninitialized instance (`isInitialized = false`, `get` misses),
contradicting the guarantee that every caller receives the completed,
fully initialized instance.  Once an instance exists, no event ever
re-creates it (at-most-once construction). -/
theorem concurrentCall_getsUninitialized :
    (runG .empty [.call, .call, .fetchResolve rawSimple]).2 =
      [none, some (.resolved newDictionary),
        some (.resolved (Dictionary.initializeFrom rawSimple))] ∧
    newDictionary.isInitialized = false ∧
    (Dictionary.initializeFrom rawSimple).isInitialized = true ∧
    (newDictionary.get [97, 98]).1 = none ∧
    mapHas (Dictionary.initializeFrom rawSimple).entries [97, 98] = true ∧
    ∀ (s : SingState) (e : GEvent), s ≠ SingState.empty →
      (gstep s e).1 ≠ SingState.empty := by
  refine ⟨by decide, by decide, by decide, by decide, by decide, ?_⟩
  intro s e hs
  cases s with
  | empty => exact absurd rfl hs
  | building => cases e <;> simp [gstep]
  | ready d => cases e <;> simp [gstep]
  | dead => cases e <;> simp [gstep]

/-- Claim C10: failed initialization permanently poisons the singleton.
If the first `getInstance` call's fetch fails, that first call rejects
with the error, the singleton enters the dead state, and every subsequent
`getInstance` call resolves successfully with the same never-initialized
instance; no further fetch has any effect (the load is never retried),
and on that instance `get` returns undefined and `findLongestMatch`
returns null for every argument. -/
theorem failedInit_poisons :
    (runG .empty [.call, .fetchFail]).1 = SingState.dead ∧
    (runG .empty [.call, .fetchFail]).2 = [none, some .rejected] ∧
    gstep .dead .call = (.dead, some (.resolved newDictionary)) ∧
    (∀ rawData, gstep .dead (.fetchResolve rawData) = (.dead, none)) ∧
    gstep .dead .fetchFail = (.dead, none) ∧
    (∀ k, (newDictionary.get k).1 = none) ∧
    (∀ text i, newDictionary.findLongestMatch text i = none) := by
  refine ⟨by decide, by decide, by decide, ?_, by decide, ?_, ?_⟩
  · intro rawData
    rfl
  · intro k
    rfl
  · intro text i
    rfl
